import Mathlib

/-!
Verification of the EnergyPlus co-simulation driver
(`src/sinergym/simulators/eplus.py`).

The development shallowly embeds the driver's message codec
(`_assembleMsg` / `_disassembleMsg`) and its episode state machine
(`reset`, `step`, `_end_episode`, and the process-group termination in
`_end_episode`'s tail).  Numeric values travelling over the wire are
Python floats; they are modelled as exact rationals (`ℚ`), and the
`'%20.15e'` text formatting is modelled by `sciFmt`, which performs the
rounding to 15 fractional mantissa digits that the format performs.
Socket I/O is modelled by an explicit trace of events: received lines
are inputs, sent lines and process signals are recorded outputs.
-/

namespace Sinergym

/-! ## Message codec

`_assembleMsg` builds a single line of whitespace-separated tokens and
`_disassembleMsg` splits its input on `' '` and parses the tokens.  A
token is modelled by what Python's `int()` / `float()` can do with it:
`intTok n` is a token accepted by both `int()` and `float()` (value
`n`), `fracTok q` is a token accepted by `float()` but not by `int()`
(such as the `'%20.15e'` renderings, which `int()` rejects), and
`rawTok` is a token rejected by both (such as the trailing `'\n'`
fragment produced by the final `' '` of `_assembleMsg`, or corrupted
input). -/

inductive Token where
  | intTok (n : ℤ)
  | fracTok (q : ℚ)
  | rawTok
  deriving DecidableEq

/-- Python's `int(token)`: succeeds exactly on integer-literal tokens. -/
def parseIntTok : Token → Option ℤ
  | .intTok n => some n
  | _ => none

/-- Python's `float(token)`: succeeds on integer and float literals. -/
def parseFloatTok : Token → Option ℚ
  | .intTok n => some (n : ℚ)
  | .fracTok q => some q
  | _ => none

/-- The decimal value denoted by the `'%20.15e'` rendering of `q`: the
mantissa `q / 10 ^ log₁₀ |q|` is rounded to 15 fractional digits.  (At
an exact half-ulp tie C's rounding mode may pick the other neighbour;
the bounds proved below hold for either choice.)  The width-20 padding
never fires, since the rendering is at least 21 characters, so the
rendered token contains no blank. -/
def sciFmt (q : ℚ) : ℚ :=
  if q = 0 then 0
  else
    (round (q * (10 : ℚ) ^ ((15 : ℤ) - Int.log 10 |q|)) : ℚ) *
      (10 : ℚ) ^ (Int.log 10 |q| - 15)

/-- The decoded form of one wire line
(`version flag nDb nIn nBl curSimTim v₁ … vₙ`). -/
structure WireMsg where
  version : ℤ
  flag : ℤ
  nDb : ℤ
  nIn : ℤ
  nBl : ℤ
  curSimTim : ℚ
  Dblist : List ℚ
  deriving DecidableEq

/-- `_assembleMsg` (eplus.py:406-440): five `'%d'` header fields, then
`curSimTim` and every value rendered with `'%20.15e'`, each token
followed by one `' '`, then `'\n'`.  Splitting the result on `' '`
therefore yields the tokens below; the terminating `'\n'` becomes a
final non-numeric token. -/
def assembleMsg (version flag nDb nIn nBl : ℤ) (curSimTim : ℚ)
    (Dblist : List ℚ) : List Token :=
  [.intTok version, .intTok flag, .intTok nDb, .intTok nIn, .intTok nBl,
    .fracTok (sciFmt curSimTim)] ++
    Dblist.map (fun v => Token.fracTok (sciFmt v)) ++ [.rawTok]

/-- The value loop of `_disassembleMsg`: parse each token with
`float()`, stopping with an error on the first failure. -/
def parseFloats : List Token → Option (List ℚ)
  | [] => some []
  | t :: ts =>
    match parseFloatTok t, parseFloats ts with
    | some q, some qs => some (q :: qs)
    | _, _ => none

/-- `_disassembleMsg` (eplus.py:442-454): parses the first five tokens
with `int()`, the sixth with `float()`, and tokens `6 … len-2` with
`float()` (the loop is `range(6, len(rcv) - 1)`, so the final token is
never parsed).  A missing token (`IndexError`) or a failed parse
(`ValueError`) is modelled as `none`. -/
def disassembleMsg : List Token → Option WireMsg
  | t0 :: t1 :: t2 :: t3 :: t4 :: t5 :: rest => do
    let version ← parseIntTok t0
    let flag ← parseIntTok t1
    let nDb ← parseIntTok t2
    let nIn ← parseIntTok t3
    let nBl ← parseIntTok t4
    let curSimTim ← parseFloatTok t5
    let Dblist ← parseFloats rest.dropLast
    pure ⟨version, flag, nDb, nIn, nBl, curSimTim, Dblist⟩
  | _ => none


/-! ## Episode state machine

The driver's mutable attributes that the lifecycle operations read and
write (`eplus.py`).  Socket, filesystem and subprocess effects are
modelled as an explicit trace: everything the simulator peer sends is
an input (already split and parsed through the codec layer above, which
is verified separately), everything the driver emits is recorded. -/

/-- Configuration fixed at construction: `self._act_repeat` and
`self._eplus_one_epi_len` (episode length in simulated seconds). -/
structure EplusConfig where
  act_repeat : ℕ
  one_epi_len : ℚ
  deriving DecidableEq

/-- The driver state mutated by `reset` / `step` / `_end_episode`:
`self._episode_existed`, `self._curSimTim`, `self._eplus_msg_header`
(`[version, flag]` from the handshake), `self._last_action`, the
current connection, and `self._epi_num`. -/
structure EplusState where
  episode_existed : Bool
  curSimTim : ℚ
  msg_header : ℤ × ℤ
  last_action : List ℚ
  conn_open : Bool
  epi_num : ℕ
  deriving DecidableEq

/-- Observable side effects of the driver, in program order:
`conn.send` of an encoded line, `conn.recv`, `conn.close`,
`time.sleep(1)`, and `os.killpg(…, SIGTERM)` on the subprocess's
process group. -/
inductive Event where
  | send (msg : List Token)
  | recv
  | close
  | sleep
  | kill
  deriving DecidableEq

/-- Lines 392-394 of eplus.py, the tail of `_end_episode`:
`os.killpg(self._eplus_process.pid, signal.SIGTERM)` followed by
`self._episode_existed = False`.  The signal is sent unconditionally —
there is no liveness probe and no guard against an already-dead
process group. -/
def terminate (st : EplusState) : EplusState × List Event :=
  ({ st with episode_existed := false }, [Event.kill])

/-- The fallible operations of `_end_episode`, in program order: the
first `conn.send`, the `conn.recv`, the second `conn.send`, the
`conn.close`, and the `os.killpg`.  (`time.sleep` does not fail.) -/
inductive TeardownFailure where
  | sendFinal
  | recvAck
  | sendAgain
  | closeConn
  | killProc
  deriving DecidableEq

/-- `_end_episode` (eplus.py:366-394) under an explicit failure
scenario: `none` means every operation succeeds, `some op` means `op`
raises.  The source has no `try`/`except`, so a raising operation
aborts the rest of the body: only the state mutations textually before
it happen, the raised error propagates (second component `true`), and
in particular `self._episode_existed = False` — the last line — is
never reached.  The happy path builds the terminate line with
`flag = 1` (the float `1.0` rendered by `'%d'` as `1`), the last
applied action and the current time cursor, sends it, reads one reply,
sends the identical line again, closes the connection, sleeps, then
signals the process group. -/
def end_episode_fallible (st : EplusState) (failAt : Option TeardownFailure) :
    EplusState × Bool × List Event :=
  let m := assembleMsg st.msg_header.1 1 (st.last_action.length : ℤ) 0 0
    st.curSimTim st.last_action
  match failAt with
  | some .sendFinal => (st, true, [])
  | some .recvAck => (st, true, [.send m])
  | some .sendAgain => (st, true, [.send m, .recv])
  | some .closeConn => (st, true, [.send m, .recv, .send m])
  | some .killProc =>
    ({ st with conn_open := false }, true,
      [.send m, .recv, .send m, .close, .sleep])
  | none =>
    let (st2, tr2) := terminate { st with conn_open := false }
    (st2, false, [.send m, .recv, .send m, .close, .sleep] ++ tr2)

/-- `_end_episode` as called by `reset` / `step` / `end_env`: the happy
path of `end_episode_fallible`. -/
def end_episode (st : EplusState) : EplusState × List Event :=
  ((end_episode_fallible st none).1, (end_episode_fallible st none).2.2)

/-- `reset` (eplus.py:126-228).  The handshake argument is the decoded
first line received from the freshly spawned simulator (codec verified
above); working-directory and subprocess creation are filesystem and
process effects that touch none of the modelled state.  The returned
triple is Python's `(time_info, Dblist, is_terminal)`, with
`time_info` — an external collaborator's function of the handshake
time — represented by the handshake time itself. -/
def reset (cfg : EplusConfig) (st : EplusState) (handshake : WireMsg) :
    (ℚ × List ℚ × Bool) × EplusState × List Event :=
  let (st0, tr0) :=
    if st.episode_existed then
      let (s, t) := end_episode st
      ({ s with epi_num := s.epi_num + 1 }, t)
    else (st, ([] : List Event))
  let cur := handshake.curSimTim
  let is_terminal : Bool := decide (cfg.one_epi_len ≤ cur)
  let st1 :=
    { st0 with
      msg_header := (handshake.version, handshake.flag)
      curSimTim := cur
      conn_open := true
      episode_existed := true }
  let (st2, tr2) := if is_terminal then end_episode st1 else (st1, [])
  ((cur, handshake.Dblist, is_terminal), st2, tr0 ++ [Event.recv] ++ tr2)

/-- One call of `step`'s exchange loop result: the encoded lines sent,
the index of the next unread peer response, and the loop-local
`curSimTim`, `Dblist`, `is_terminal` after the loop. -/
structure RoundResult where
  sends : List (List Token)
  nextIdx : ℕ
  curSimTim : ℚ
  Dblist : List ℚ
  isTerminal : Bool
  deriving DecidableEq

/-- The `while act_repeat_i < self._act_repeat and (not is_terminal)`
loop of `step` (eplus.py:256-273): each round encodes the action with
`flag = 0` and the loop's current time cursor, sends it, reads the
response `peer i`, and moves the cursor to the response's elapsed
time; the loop leaves as soon as a response's elapsed time reaches the
episode length.  (Remaining count 0 is unreachable from `step` when
`act_repeat ≥ 1`; with `act_repeat = 0` the Python body would raise
`NameError` on the never-assigned `Dblist`.) -/
def stepRounds (len : ℚ) (v : ℤ) (action : List ℚ) (peer : ℕ → WireMsg) :
    ℕ → ℕ → ℚ → RoundResult
  | 0, i, cur => ⟨[], i, cur, [], false⟩
  | r + 1, i, cur =>
    let tosend := assembleMsg v 0 (action.length : ℤ) 0 0 cur action
    let rsp := peer i
    if len ≤ rsp.curSimTim then
      ⟨[tosend], i + 1, rsp.curSimTim, rsp.Dblist, true⟩
    else
      match r with
      | 0 => ⟨[tosend], i + 1, rsp.curSimTim, rsp.Dblist, false⟩
      | r' + 1 =>
        let rest := stepRounds len v action peer (r' + 1) (i + 1) rsp.curSimTim
        ⟨tosend :: rest.sends, rest.nextIdx, rest.curSimTim, rest.Dblist,
          rest.isTerminal⟩

/-- Result of one `step` call: Python's return value (`none` is the
`return None` sentinel), the updated driver state, the encoded lines
sent, and the next unread peer-response index. -/
structure StepResult where
  ret : Option (ℚ × List ℚ × Bool)
  state : EplusState
  sends : List (List Token)
  nextIdx : ℕ

/-- `step` (eplus.py:230-286).  `peer` is the stream of decoded
responses on the episode's connection and `idx` the position of the
next unread one.  If the cursor has reached the episode length the
sentinel `None` is returned at once, nothing is sent and nothing
changes; otherwise the exchange loop runs and afterwards
`self._curSimTim` and `self._last_action` are updated. -/
def step (cfg : EplusConfig) (st : EplusState) (action : List ℚ)
    (peer : ℕ → WireMsg) (idx : ℕ) : StepResult :=
  if cfg.one_epi_len ≤ st.curSimTim then ⟨none, st, [], idx⟩
  else
    let R := stepRounds cfg.one_epi_len st.msg_header.1 action peer
      cfg.act_repeat idx st.curSimTim
    ⟨some (R.curSimTim, R.Dblist, R.isTerminal),
      { st with curSimTim := R.curSimTim, last_action := action },
      R.sends, R.nextIdx⟩

/-- The loop-local cursor of `step`'s exchange loop before round `j`
(0-based): the driver's cursor before round 0, afterwards the elapsed
time of the previous response. -/
def roundCursor (cur0 : ℚ) (peer : ℕ → WireMsg) (idx : ℕ) : ℕ → ℚ
  | 0 => cur0
  | j + 1 => (peer (idx + j)).curSimTim

/-- A sequence of `step` calls within one episode, returning the
driver's time cursor after each call. -/
def runSteps (cfg : EplusConfig) (peer : ℕ → WireMsg) :
    EplusState → ℕ → List (List ℚ) → List ℚ
  | _, _, [] => []
  | st, idx, a :: as =>
    let R := step cfg st a peer idx
    R.state.curSimTim :: runSteps cfg peer R.state R.nextIdx as

/-- Concrete driver artefacts used to evaluate the theorems below on
closed inputs. -/
def sampleConfig : EplusConfig := ⟨1, 10⟩

def sampleState : EplusState := ⟨true, 0, (2, 0), [21, 25], true, 0⟩

def samplePeer : ℕ → WireMsg := fun _ => ⟨2, 0, 1, 0, 0, 20, [3]⟩

def steadyState : EplusState := ⟨true, 5, (2, 0), [], true, 0⟩

def steadyPeer : ℕ → WireMsg := fun _ => ⟨2, 0, 0, 0, 0, 5, []⟩

/-! ### Codec lemmas -/

lemma parseFloats_map_fracTok (qs : List ℚ) :
    parseFloats (qs.map fun q => Token.fracTok q) = some qs := by
  induction qs with
  | nil => rfl
  | cons q qs ih => simp [parseFloats, parseFloatTok, ih]

/-- Decoding an assembled message succeeds and recovers the header
exactly and the floats up to the `'%20.15e'` rounding. -/
lemma disassemble_assemble (v f a b c : ℤ) (t : ℚ) (ds : List ℚ) :
    disassembleMsg (assembleMsg v f a b c t ds) =
      some ⟨v, f, a, b, c, sciFmt t, ds.map sciFmt⟩ := by
  have hmap : (ds.map sciFmt).map (fun q => Token.fracTok q) =
      ds.map (fun v => Token.fracTok (sciFmt v)) := by
    rw [List.map_map]
    rfl
  simp only [assembleMsg, disassembleMsg, List.cons_append, List.nil_append,
    parseIntTok, parseFloatTok, Option.bind_eq_bind, Option.some_bind]
  rw [List.dropLast_concat, ← hmap, parseFloats_map_fracTok]
  rfl

lemma sciFmt_zero : sciFmt 0 = 0 := by simp [sciFmt]

/-- The `'%20.15e'` rounding loses at most one part in `2 · 10¹⁵`
relatively, hence far less than `10⁻¹²` relative error. -/
lemma abs_sciFmt_sub_le (q : ℚ) : |sciFmt q - q| ≤ |q| / 10 ^ 12 := by
  by_cases hq : q = 0
  · subst hq; simp [sciFmt_zero]
  · have hq0 : (0 : ℚ) < |q| := abs_pos.mpr hq
    set e : ℤ := Int.log 10 |q| with he
    have hb : (1 : ℕ) < 10 := by norm_num
    have hlow : (10 : ℚ) ^ e ≤ |q| := by
      have := Int.zpow_log_le_self (b := 10) (r := |q|) hb hq0
      simpa [he] using this
    have h10 : (0 : ℚ) < 10 := by norm_num
    have hpow : (0 : ℚ) < (10 : ℚ) ^ ((15 : ℤ) - e) := zpow_pos h10 _
    have hround : |(round (q * (10 : ℚ) ^ ((15 : ℤ) - e)) : ℚ) -
        q * (10 : ℚ) ^ ((15 : ℤ) - e)| ≤ 1 / 2 := by
      have := abs_sub_round (α := ℚ) (q * (10 : ℚ) ^ ((15 : ℤ) - e))
      rw [abs_sub_comm] at this
      exact this
    have hinv : (10 : ℚ) ^ (e - 15) = ((10 : ℚ) ^ ((15 : ℤ) - e))⁻¹ := by
      rw [← zpow_neg, neg_sub]
    have hexpand : sciFmt q - q =
        ((round (q * (10 : ℚ) ^ ((15 : ℤ) - e)) : ℚ) -
          q * (10 : ℚ) ^ ((15 : ℤ) - e)) * (10 : ℚ) ^ (e - 15) := by
      rw [sciFmt, if_neg hq, ← he, sub_mul, hinv]
      congr 1
      rw [mul_assoc, mul_inv_cancel₀ (ne_of_gt hpow), mul_one]
    calc |sciFmt q - q|
        = |(round (q * (10 : ℚ) ^ ((15 : ℤ) - e)) : ℚ) -
            q * (10 : ℚ) ^ ((15 : ℤ) - e)| * |(10 : ℚ) ^ (e - 15)| := by
          rw [hexpand, abs_mul]
      _ ≤ (1 / 2) * (10 : ℚ) ^ (e - 15) := by
          apply mul_le_mul hround (le_of_eq (abs_of_pos (zpow_pos h10 _)))
            (abs_nonneg _) (by norm_num)
      _ = (1 / 2) * ((10 : ℚ) ^ e * (10 : ℚ) ^ (-15 : ℤ)) := by
          rw [← zpow_add₀ (by norm_num : (10 : ℚ) ≠ 0)]
          have harith : (e : ℤ) + -15 = e - 15 := by omega
          rw [harith]
      _ ≤ (1 / 2) * (|q| * (10 : ℚ) ^ (-15 : ℤ)) := by
          apply mul_le_mul_of_nonneg_left
          · exact mul_le_mul_of_nonneg_right hlow (le_of_lt (zpow_pos h10 _))
          · norm_num
      _ ≤ |q| / 10 ^ 12 := by
          rw [show ((-15 : ℤ) = -(15 : ℕ)) from rfl, zpow_neg, zpow_natCast]
          rw [div_eq_mul_inv]
          have : (1 / 2 : ℚ) * ((10 : ℚ) ^ (15 : ℕ))⁻¹ ≤ ((10 : ℚ) ^ (12 : ℕ))⁻¹ := by
            norm_num
          calc (1 / 2 : ℚ) * (|q| * ((10 : ℚ) ^ (15 : ℕ))⁻¹)
              = |q| * ((1 / 2 : ℚ) * ((10 : ℚ) ^ (15 : ℕ))⁻¹) := by ring
            _ ≤ |q| * ((10 : ℚ) ^ (12 : ℕ))⁻¹ :=
                mul_le_mul_of_nonneg_left this (abs_nonneg q)
            _ = |q| * ((10 : ℚ) ^ 12)⁻¹ := by norm_num

/-- Pinning down `Int.log 10 q` from a bracketing by powers of 10. -/
lemma int_log_eq_of_bracket {q : ℚ} {e : ℤ} (h1 : (10 : ℚ) ^ e ≤ q)
    (h2 : q < (10 : ℚ) ^ (e + 1)) : Int.log 10 q = e := by
  have hq : 0 < q := lt_of_lt_of_le (zpow_pos (by norm_num) e) h1
  have hb : (1 : ℕ) < 10 := by norm_num
  have hle : e ≤ Int.log 10 q := (Int.zpow_le_iff_le_log hb hq).mp (by exact_mod_cast h1)
  have hlt : Int.log 10 q < e + 1 := (Int.lt_zpow_iff_log_lt hb hq).mp (by exact_mod_cast h2)
  omega

/-- The value `0.30000000000000004` (a Python float that needs 17
significant digits): its `'%20.15e'` rendering denotes `3/10`, so the
round trip is not exact on it. -/
lemma sciFmt_not_exact_example :
    sciFmt ((30000000000000004 : ℚ) / 10 ^ 17) = 3 / 10 := by
  have hq : ((30000000000000004 : ℚ) / 10 ^ 17) ≠ 0 := by norm_num
  have habs : |(30000000000000004 : ℚ) / 10 ^ 17| =
      (30000000000000004 : ℚ) / 10 ^ 17 := abs_of_pos (by norm_num)
  have hlog : Int.log 10 ((30000000000000004 : ℚ) / 10 ^ 17) = -1 := by
    apply int_log_eq_of_bracket
    · rw [show ((-1 : ℤ)) = -(1 : ℕ) from rfl, zpow_neg, zpow_natCast]
      norm_num
    · norm_num
  rw [sciFmt, if_neg hq, habs, hlog]
  have he1 : ((15 : ℤ) - (-1)) = (16 : ℕ) := by norm_num
  have he2 : ((-1 : ℤ) - 15) = -(16 : ℕ) := by norm_num
  rw [he1, he2, zpow_natCast, zpow_neg, zpow_natCast]
  have harg : ((30000000000000004 : ℚ) / 10 ^ 17) * 10 ^ (16 : ℕ) =
      (30000000000000004 : ℚ) / 10 := by norm_num
  rw [harg]
  have hround : round ((30000000000000004 : ℚ) / 10) = 3000000000000000 := by
    rw [round_eq]
    rw [Int.floor_eq_iff]
    constructor <;> norm_num
  rw [hround]
  norm_num

/-- The value loop fails exactly when some token fails `float()`. -/
lemma parseFloats_eq_none (l : List Token) :
    parseFloats l = none ↔ ∃ t ∈ l, parseFloatTok t = none := by
  induction l with
  | nil => simp [parseFloats]
  | cons t ts ih =>
    cases ht : parseFloatTok t with
    | none => simp [parseFloats, ht]
    | some q =>
      cases hts : parseFloats ts with
      | none =>
        obtain ⟨x, hx, hxn⟩ := ih.mp hts
        simp only [parseFloats, ht, hts]
        constructor
        · intro _; exact ⟨x, List.mem_cons_of_mem _ hx, hxn⟩
        · intro _; trivial
      | some qs =>
        simp only [parseFloats, ht, hts]
        constructor
        · intro h; exact absurd h (by simp)
        · rintro ⟨x, hx, hxn⟩
          rcases List.mem_cons.mp hx with rfl | hx'
          · rw [ht] at hxn; exact absurd hxn (by simp)
          · exact absurd (ih.mpr ⟨x, hx', hxn⟩) (by rw [hts]; simp)

/-- C2 (amended): `_disassembleMsg` fails exactly when the line has
fewer than 6 tokens, when one of the first five header tokens fails
integer parsing or the sixth fails float parsing, or when a value
token after the header — other than the final token, which the loop
`range(6, len(rcv) - 1)` never reaches — fails float parsing; on all
other inputs it returns a parsed message. -/
theorem c2_decode_failure_iff (rcv : List Token) :
    disassembleMsg rcv = none ↔
      rcv.length < 6 ∨
      parseIntTok (rcv.getD 0 .rawTok) = none ∨
      parseIntTok (rcv.getD 1 .rawTok) = none ∨
      parseIntTok (rcv.getD 2 .rawTok) = none ∨
      parseIntTok (rcv.getD 3 .rawTok) = none ∨
      parseIntTok (rcv.getD 4 .rawTok) = none ∨
      parseFloatTok (rcv.getD 5 .rawTok) = none ∨
      ∃ t ∈ (rcv.drop 6).dropLast, parseFloatTok t = none := by
  match rcv with
  | [] => simp [disassembleMsg]
  | [_] => simp [disassembleMsg]
  | [_, _] => simp [disassembleMsg]
  | [_, _, _] => simp [disassembleMsg]
  | [_, _, _, _] => simp [disassembleMsg]
  | [_, _, _, _, _] => simp [disassembleMsg]
  | t0 :: t1 :: t2 :: t3 :: t4 :: t5 :: rest =>
    have hlen : ¬((t0 :: t1 :: t2 :: t3 :: t4 :: t5 :: rest).length < 6) := by
      simp only [List.length_cons]
      omega
    simp only [disassembleMsg, hlen, false_or, List.getD_cons_zero,
      List.getD_cons_succ, List.drop_succ_cons, List.drop_zero,
      Option.bind_eq_bind]
    cases h0 : parseIntTok t0 with
    | none => simp [h0]
    | some v0 =>
      cases h1 : parseIntTok t1 with
      | none => simp [h0, h1]
      | some v1 =>
        cases h2 : parseIntTok t2 with
        | none => simp [h0, h1, h2]
        | some v2 =>
          cases h3 : parseIntTok t3 with
          | none => simp [h0, h1, h2, h3]
          | some v3 =>
            cases h4 : parseIntTok t4 with
            | none => simp [h0, h1, h2, h3, h4]
            | some v4 =>
              cases h5 : parseFloatTok t5 with
              | none => simp [h0, h1, h2, h3, h4, h5]
              | some v5 =>
                cases h6 : parseFloats rest.dropLast with
                | none =>
                  simp [h0, h1, h2, h3, h4, h5, h6,
                    (parseFloats_eq_none _).mp h6]
                | some vs =>
                  have : ¬∃ t ∈ rest.dropLast, parseFloatTok t = none := by
                    rw [← parseFloats_eq_none, h6]
                    simp
                  simp [h0, h1, h2, h3, h4, h5, h6, this]

/-! ### Exchange-loop lemmas -/

lemma roundCursor_shift (cur : ℚ) (peer : ℕ → WireMsg) (idx j : ℕ) :
    roundCursor ((peer idx).curSimTim) peer (idx + 1) j =
      roundCursor cur peer idx (j + 1) := by
  cases j with
  | zero => simp [roundCursor]
  | succ j' =>
    simp only [roundCursor]
    have h : idx + 1 + j' = idx + (j' + 1) := by omega
    rw [h]

/-- One round in which the response reaches the episode length: the
loop leaves immediately with the terminal flag set. -/
lemma stepRounds_succ_terminal (len : ℚ) (v : ℤ) (action : List ℚ)
    (peer : ℕ → WireMsg) (r i : ℕ) (cur : ℚ)
    (hterm : len ≤ (peer i).curSimTim) :
    stepRounds len v action peer (r + 1) i cur =
      ⟨[assembleMsg v 0 (action.length : ℤ) 0 0 cur action], i + 1,
        (peer i).curSimTim, (peer i).Dblist, true⟩ := by
  cases r <;> simp [stepRounds, hterm]

/-- The last permitted round with a response below the episode length:
the loop leaves by count exhaustion with the terminal flag clear. -/
lemma stepRounds_one_nonterminal (len : ℚ) (v : ℤ) (action : List ℚ)
    (peer : ℕ → WireMsg) (i : ℕ) (cur : ℚ)
    (hterm : ¬ len ≤ (peer i).curSimTim) :
    stepRounds len v action peer 1 i cur =
      ⟨[assembleMsg v 0 (action.length : ℤ) 0 0 cur action], i + 1,
        (peer i).curSimTim, (peer i).Dblist, false⟩ := by
  simp [stepRounds, hterm]

/-- A non-final round with a response below the episode length: the
loop advances the cursor to the response and continues. -/
lemma stepRounds_succ_succ_nonterminal (len : ℚ) (v : ℤ) (action : List ℚ)
    (peer : ℕ → WireMsg) (r i : ℕ) (cur : ℚ)
    (hterm : ¬ len ≤ (peer i).curSimTim) :
    stepRounds len v action peer (r + 1 + 1) i cur =
      ⟨assembleMsg v 0 (action.length : ℤ) 0 0 cur action ::
          (stepRounds len v action peer (r + 1) (i + 1)
            ((peer i).curSimTim)).sends,
        (stepRounds len v action peer (r + 1) (i + 1)
          ((peer i).curSimTim)).nextIdx,
        (stepRounds len v action peer (r + 1) (i + 1)
          ((peer i).curSimTim)).curSimTim,
        (stepRounds len v action peer (r + 1) (i + 1)
          ((peer i).curSimTim)).Dblist,
        (stepRounds len v action peer (r + 1) (i + 1)
          ((peer i).curSimTim)).isTerminal⟩ := by
  simp [stepRounds, hterm]

/-- Full characterization of one run of the exchange loop with `r ≥ 1`
permitted rounds starting at response index `idx` and cursor `cur`:
some `1 ≤ n ≤ r` rounds execute; round `j` sends the action encoded at
the loop cursor before that round; every response before the last stays
below the episode length; the loop stops short of `r` only because the
last response reached it; and the result carries the last response's
elapsed time and values, with the terminal flag set accordingly. -/
lemma stepRounds_spec (len : ℚ) (v : ℤ) (action : List ℚ)
    (peer : ℕ → WireMsg) :
    ∀ (r idx : ℕ) (cur : ℚ), 1 ≤ r →
    ∃ n, 1 ≤ n ∧ n ≤ r ∧
      (stepRounds len v action peer r idx cur).sends.length = n ∧
      (∀ j, j < n → (stepRounds len v action peer r idx cur).sends[j]? =
        some (assembleMsg v 0 (action.length : ℤ) 0 0
          (roundCursor cur peer idx j) action)) ∧
      (∀ j, j + 1 < n → (peer (idx + j)).curSimTim < len) ∧
      (n < r → len ≤ (peer (idx + (n - 1))).curSimTim) ∧
      (stepRounds len v action peer r idx cur).nextIdx = idx + n ∧
      (stepRounds len v action peer r idx cur).curSimTim =
        (peer (idx + (n - 1))).curSimTim ∧
      (stepRounds len v action peer r idx cur).Dblist =
        (peer (idx + (n - 1))).Dblist ∧
      (stepRounds len v action peer r idx cur).isTerminal =
        decide (len ≤ (peer (idx + (n - 1))).curSimTim) := by
  intro r
  induction r with
  | zero => intro idx cur h; exact absurd h (by decide)
  | succ r ih =>
    intro idx cur _
    by_cases hterm : len ≤ (peer idx).curSimTim
    · rw [stepRounds_succ_terminal len v action peer r idx cur hterm]
      refine ⟨1, le_refl 1, by omega, rfl, ?_, ?_, ?_, rfl, by simp, by simp,
        by simp [hterm]⟩
      · intro j hj
        have hj0 : j = 0 := by omega
        subst hj0
        simp [roundCursor]
      · intro j hj; omega
      · intro _; simpa using hterm
    · cases r with
      | zero =>
        rw [stepRounds_one_nonterminal len v action peer idx cur hterm]
        refine ⟨1, le_refl 1, le_refl 1, rfl, ?_, ?_, ?_, rfl, by simp,
          by simp, by simp [hterm]⟩
        · intro j hj
          have hj0 : j = 0 := by omega
          subst hj0
          simp [roundCursor]
        · intro j hj; omega
        · intro h; omega
      | succ r'' =>
        obtain ⟨n', hn1, hn2, hlen, hget, hearly, hstop, hidx, hcur, hdb,
          hfin⟩ := ih (idx + 1) ((peer idx).curSimTim) (by omega)
        rw [stepRounds_succ_succ_nonterminal len v action peer r'' idx cur
          hterm]
        have harith : (idx + 1) + (n' - 1) = idx + n' := by omega
        have harith2 : idx + (n' + 1 - 1) = idx + n' := by omega
        refine ⟨n' + 1, by omega, by omega, ?_, ?_, ?_, ?_, ?_, ?_, ?_, ?_⟩
        · simp [hlen]
        · intro j hj
          cases j with
          | zero => simp [roundCursor]
          | succ j' =>
            simp only [List.getElem?_cons_succ]
            rw [hget j' (by omega), roundCursor_shift cur]
        · intro j hj
          cases j with
          | zero => simpa using lt_of_not_le hterm
          | succ j' =>
            have hj' := hearly j' (by omega)
            have heq : (idx + 1) + j' = idx + (j' + 1) := by omega
            rwa [heq] at hj'
        · intro h
          have hs := hstop (by omega)
          rw [harith] at hs
          rwa [harith2]
        · simp only []
          rw [hidx]
          omega
        · simp only []
          rw [hcur, harith, harith2]
        · simp only []
          rw [hdb, harith, harith2]
        · simp only []
          rw [hfin, harith, harith2]

/-- Chained monotonicity of a non-decreasing response stream. -/
lemma peer_mono (peer : ℕ → WireMsg)
    (hmono : ∀ i, (peer i).curSimTim ≤ (peer (i + 1)).curSimTim) :
    ∀ a b : ℕ, a ≤ b → (peer a).curSimTim ≤ (peer b).curSimTim := by
  intro a b hab
  induction b, hab using Nat.le_induction with
  | base => exact le_rfl
  | succ n hn ihn => exact le_trans ihn (hmono n)

/-- One `step` call under a non-decreasing, drift-bounded response
stream anchored at the incoming cursor: the cursor does not decrease,
stays below `one_epi_len + act_repeat · δ`, and the anchoring carries
over to the next unread response. -/
lemma step_invariant (cfg : EplusConfig) (st : EplusState) (action : List ℚ)
    (peer : ℕ → WireMsg) (idx : ℕ) (δ : ℚ)
    (hδ : 0 ≤ δ) (hact : 1 ≤ cfg.act_repeat)
    (hmono : ∀ i, (peer i).curSimTim ≤ (peer (i + 1)).curSimTim)
    (hdrift : ∀ i, (peer (i + 1)).curSimTim ≤ (peer i).curSimTim + δ)
    (h1 : st.curSimTim ≤ (peer idx).curSimTim)
    (h2 : (peer idx).curSimTim ≤ st.curSimTim + δ)
    (hbound : st.curSimTim ≤ cfg.one_epi_len + (cfg.act_repeat : ℚ) * δ) :
    st.curSimTim ≤ (step cfg st action peer idx).state.curSimTim ∧
    (step cfg st action peer idx).state.curSimTim ≤
      cfg.one_epi_len + (cfg.act_repeat : ℚ) * δ ∧
    (step cfg st action peer idx).state.curSimTim ≤
      (peer (step cfg st action peer idx).nextIdx).curSimTim ∧
    (peer (step cfg st action peer idx).nextIdx).curSimTim ≤
      (step cfg st action peer idx).state.curSimTim + δ := by
  by_cases hsent : cfg.one_epi_len ≤ st.curSimTim
  · have hstate : (step cfg st action peer idx).state = st := by
      simp [step, hsent]
    have hni : (step cfg st action peer idx).nextIdx = idx := by
      simp [step, hsent]
    rw [hstate, hni]
    exact ⟨le_rfl, hbound, h1, h2⟩
  · obtain ⟨n, hn1, hn2, _, _, hearly, _, hidx, hcur, _, _⟩ :=
      stepRounds_spec cfg.one_epi_len st.msg_header.1 action peer
        cfg.act_repeat idx st.curSimTim hact
    have hstate : (step cfg st action peer idx).state.curSimTim =
        (peer (idx + (n - 1))).curSimTim := by
      simp only [step, if_neg hsent]
      exact hcur
    have hni : (step cfg st action peer idx).nextIdx = idx + n := by
      simp only [step, if_neg hsent]
      exact hidx
    have hlt : st.curSimTim < cfg.one_epi_len := lt_of_not_le hsent
    have hone : (1 : ℚ) ≤ (cfg.act_repeat : ℚ) := by exact_mod_cast hact
    have hδk : δ ≤ (cfg.act_repeat : ℚ) * δ := by
      calc δ = 1 * δ := (one_mul δ).symm
        _ ≤ (cfg.act_repeat : ℚ) * δ := mul_le_mul_of_nonneg_right hone hδ
    have hup : (peer (idx + (n - 1))).curSimTim ≤ cfg.one_epi_len + δ := by
      rcases Nat.lt_or_ge n 2 with hn | hn
      · have hn1' : n = 1 := by omega
        subst hn1'
        simp only [Nat.sub_self, Nat.add_zero]
        calc (peer idx).curSimTim ≤ st.curSimTim + δ := h2
          _ ≤ cfg.one_epi_len + δ := by linarith
      · have hpred : (peer (idx + (n - 2))).curSimTim < cfg.one_epi_len :=
          hearly (n - 2) (by omega)
        have hstep' : (peer (idx + (n - 2) + 1)).curSimTim ≤
            (peer (idx + (n - 2))).curSimTim + δ := hdrift _
        have harith : idx + (n - 2) + 1 = idx + (n - 1) := by omega
        rw [harith] at hstep'
        linarith
    refine ⟨?_, ?_, ?_, ?_⟩
    · rw [hstate]
      exact le_trans h1 (peer_mono peer hmono idx (idx + (n - 1)) (by omega))
    · rw [hstate]
      linarith
    · rw [hstate, hni]
      exact peer_mono peer hmono (idx + (n - 1)) (idx + n) (by omega)
    · rw [hstate, hni]
      have := hdrift (idx + (n - 1))
      have harith : idx + (n - 1) + 1 = idx + n := by omega
      rwa [harith] at this



/-! ## Claim theorems -/

/-- C1 (amended): decoding the bytes produced by `_assembleMsg`
always succeeds; `version`, `flag` and the three count fields are
reproduced exactly; `elapsedTime` and every element of the value list
are reproduced within `10⁻¹²` relative error (the `'%20.15e'`
rendering carries only 16 significant digits, so exact reproduction
can fail); and the decoded value list has the same length as the
input list. -/
theorem c1_encode_decode_roundtrip (v f a b c : ℤ) (t : ℚ) (ds : List ℚ) :
    disassembleMsg (assembleMsg v f a b c t ds) =
      some ⟨v, f, a, b, c, sciFmt t, ds.map sciFmt⟩ ∧
    |sciFmt t - t| ≤ |t| / 10 ^ 12 ∧
    (ds.map sciFmt).length = ds.length ∧
    ∀ d ∈ ds, |sciFmt d - d| ≤ |d| / 10 ^ 12 :=
  ⟨disassemble_assemble v f a b c t ds, abs_sciFmt_sub_le t,
    by simp, fun d _ => abs_sciFmt_sub_le d⟩

/-- C1 counterexample: for `elapsedTime = 0.30000000000000004` (a
value every IEEE double printer needs 17 significant digits for), the
decoded elapsed time is `3/10 ≠ 0.30000000000000004`, so the original
claim's "reproduces elapsedTime exactly" fails. -/
theorem c1_roundtrip_not_exact_counterexample :
    disassembleMsg
        (assembleMsg 1 0 0 0 0 ((30000000000000004 : ℚ) / 10 ^ 17) []) =
      some ⟨1, 0, 0, 0, 0, 3 / 10, []⟩ ∧
    (3 / 10 : ℚ) ≠ (30000000000000004 : ℚ) / 10 ^ 17 := by
  constructor
  · rw [disassemble_assemble, sciFmt_not_exact_example]
    rfl
  · norm_num

/-- C2 counterexample: `"1 0 0 0 0 0.0 garbage"` has 7 tokens and its
seventh token — a value token after the header — fails float parsing,
yet `_disassembleMsg` succeeds on it (the loop never reads the final
token), contradicting the original claim. -/
theorem c2_trailing_garbage_counterexample :
    disassembleMsg [.intTok 1, .intTok 0, .intTok 0, .intTok 0, .intTok 0,
        .fracTok 0, .rawTok] = some ⟨1, 0, 0, 0, 0, 0, []⟩ ∧
    parseFloatTok (([Token.intTok 1, .intTok 0, .intTok 0, .intTok 0,
        .intTok 0, .fracTok 0, .rawTok]).getD 6 .rawTok) = none := by
  decide

/-- C3: after `reset`, the driver's time cursor equals the handshake's
elapsed time; the returned terminal flag is set exactly when that
elapsed time reached the configured episode length; and an episode
exists (`Active`) afterwards exactly when it did not — in the terminal
case `_end_episode` has run and cleared the flag and the connection. -/
theorem c3_reset_handshake (cfg : EplusConfig) (st : EplusState)
    (handshake : WireMsg) :
    (reset cfg st handshake).2.1.curSimTim = handshake.curSimTim ∧
    (reset cfg st handshake).1.2.2 =
      decide (cfg.one_epi_len ≤ handshake.curSimTim) ∧
    (reset cfg st handshake).2.1.episode_existed =
      decide (handshake.curSimTim < cfg.one_epi_len) ∧
    (reset cfg st handshake).2.1.conn_open =
      decide (handshake.curSimTim < cfg.one_epi_len) := by
  by_cases ht : cfg.one_epi_len ≤ handshake.curSimTim
  · by_cases he : st.episode_existed <;>
      simp [reset, end_episode, end_episode_fallible, terminate, ht, he,
        not_lt.mpr ht]
  · by_cases he : st.episode_existed <;>
      simp [reset, end_episode, end_episode_fallible, terminate, ht, he,
        lt_of_not_le ht]

/-- C4: when the time cursor has reached the configured episode length
(the driver is no longer `Active`), `step` returns the `None` sentinel
without raising, sends nothing, consumes no response and leaves the
state untouched. -/
theorem c4_step_sentinel (cfg : EplusConfig) (st : EplusState)
    (action : List ℚ) (peer : ℕ → WireMsg) (idx : ℕ)
    (h : cfg.one_epi_len ≤ st.curSimTim) :
    step cfg st action peer idx = ⟨none, st, [], idx⟩ := by
  simp [step, h]

theorem c4_step_sentinel_witness :
    (sampleConfig.one_epi_len ≤
      ({ steadyState with curSimTim := 10 } : EplusState).curSimTim) ∧
    step sampleConfig { steadyState with curSimTim := 10 } [1] samplePeer 0 =
      ⟨none, { steadyState with curSimTim := 10 }, [], 0⟩ :=
  ⟨by decide,
    c4_step_sentinel sampleConfig { steadyState with curSimTim := 10 } [1]
      samplePeer 0 (by decide)⟩

/-- C5: an `Active` `step` call with `act_repeat ≥ 1` performs `n`
exchange rounds for some `1 ≤ n ≤ act_repeat`; round `j` sends the
action encoded with flag 0 and the loop cursor before that round;
every response before the last stays below the episode length and the
loop stops short of `act_repeat` only because its last response
reached it; the call returns the last response's elapsed time, value
list and the terminal flag, and updates the cursor and the remembered
action accordingly. -/
theorem c5_step_active (cfg : EplusConfig) (st : EplusState)
    (action : List ℚ) (peer : ℕ → WireMsg) (idx : ℕ)
    (hact : 1 ≤ cfg.act_repeat) (hcur : st.curSimTim < cfg.one_epi_len) :
    ∃ n, 1 ≤ n ∧ n ≤ cfg.act_repeat ∧
      (step cfg st action peer idx).sends.length = n ∧
      (∀ j, j < n → (step cfg st action peer idx).sends[j]? =
        some (assembleMsg st.msg_header.1 0 (action.length : ℤ) 0 0
          (roundCursor st.curSimTim peer idx j) action)) ∧
      (∀ j, j + 1 < n → (peer (idx + j)).curSimTim < cfg.one_epi_len) ∧
      (n < cfg.act_repeat →
        cfg.one_epi_len ≤ (peer (idx + (n - 1))).curSimTim) ∧
      (step cfg st action peer idx).ret =
        some ((peer (idx + (n - 1))).curSimTim,
          (peer (idx + (n - 1))).Dblist,
          decide (cfg.one_epi_len ≤ (peer (idx + (n - 1))).curSimTim)) ∧
      (step cfg st action peer idx).state =
        { st with curSimTim := (peer (idx + (n - 1))).curSimTim,
                  last_action := action } ∧
      (step cfg st action peer idx).nextIdx = idx + n := by
  have hsent : ¬ cfg.one_epi_len ≤ st.curSimTim := not_le.mpr hcur
  obtain ⟨n, hn1, hn2, hlen, hget, hearly, hstop, hidx, hcur', hdb, hfin⟩ :=
    stepRounds_spec cfg.one_epi_len st.msg_header.1 action peer
      cfg.act_repeat idx st.curSimTim hact
  refine ⟨n, hn1, hn2, ?_, ?_, hearly, hstop, ?_, ?_, ?_⟩
  · simpa only [step, if_neg hsent] using hlen
  · intro j hj
    simpa only [step, if_neg hsent] using hget j hj
  · simp only [step, if_neg hsent]
    rw [hcur', hdb, hfin]
  · simp only [step, if_neg hsent]
    rw [hcur']
  · simpa only [step, if_neg hsent] using hidx

theorem c5_step_active_witness :
    (1 ≤ sampleConfig.act_repeat ∧
      sampleState.curSimTim < sampleConfig.one_epi_len) ∧
    ∃ n, 1 ≤ n ∧ n ≤ sampleConfig.act_repeat ∧
      (step sampleConfig sampleState [1] samplePeer 0).sends.length = n ∧
      (∀ j, j < n → (step sampleConfig sampleState [1] samplePeer 0).sends[j]? =
        some (assembleMsg sampleState.msg_header.1 0
          ((([1] : List ℚ)).length : ℤ) 0 0
          (roundCursor sampleState.curSimTim samplePeer 0 j) [1])) ∧
      (∀ j, j + 1 < n →
        (samplePeer (0 + j)).curSimTim < sampleConfig.one_epi_len) ∧
      (n < sampleConfig.act_repeat →
        sampleConfig.one_epi_len ≤ (samplePeer (0 + (n - 1))).curSimTim) ∧
      (step sampleConfig sampleState [1] samplePeer 0).ret =
        some ((samplePeer (0 + (n - 1))).curSimTim,
          (samplePeer (0 + (n - 1))).Dblist,
          decide (sampleConfig.one_epi_len ≤
            (samplePeer (0 + (n - 1))).curSimTim)) ∧
      (step sampleConfig sampleState [1] samplePeer 0).state =
        { sampleState with
            curSimTim := (samplePeer (0 + (n - 1))).curSimTim
            last_action := [1] } ∧
      (step sampleConfig sampleState [1] samplePeer 0).nextIdx = 0 + n :=
  ⟨⟨by decide, by decide⟩,
    c5_step_active sampleConfig sampleState [1] samplePeer 0 (by decide)
      (by decide)⟩

/-- C6: `_end_episode`'s happy path performs exactly: send the
terminate line (flag 1, the last applied action, the current time
cursor), read one reply, send the identical line a second time, close
the connection, pause, then signal the subprocess's process group —
and the sent line decodes to the terminate message it is meant to
carry. -/
theorem c6_teardown_sequence (st : EplusState) :
    (end_episode st).2 =
      [Event.send (assembleMsg st.msg_header.1 1 (st.last_action.length : ℤ)
          0 0 st.curSimTim st.last_action),
        Event.recv,
        Event.send (assembleMsg st.msg_header.1 1 (st.last_action.length : ℤ)
          0 0 st.curSimTim st.last_action),
        Event.close, Event.sleep, Event.kill] ∧
    disassembleMsg (assembleMsg st.msg_header.1 1
        (st.last_action.length : ℤ) 0 0 st.curSimTim st.last_action) =
      some ⟨st.msg_header.1, 1, (st.last_action.length : ℤ), 0, 0,
        sciFmt st.curSimTim, st.last_action.map sciFmt⟩ := by
  constructor
  · simp [end_episode, end_episode_fallible, terminate]
  · exact disassemble_assemble _ _ _ _ _ _ _

/-- C7 (amended): `_end_episode` has no internal error handling: it
raises exactly when one of its operations fails, and only the
all-success path clears the episode-existed flag — on any failure the
error propagates to the caller and the flag keeps its previous
value. -/
theorem c7_teardown_error_propagation (st : EplusState)
    (failAt : Option TeardownFailure) :
    (end_episode_fallible st failAt).2.1 = failAt.isSome ∧
    (end_episode_fallible st failAt).1.episode_existed =
      (if failAt.isSome then st.episode_existed else false) := by
  cases failAt with
  | none => simp [end_episode_fallible, terminate]
  | some k => cases k <;> simp [end_episode_fallible]

/-- C7 counterexample: with an episode active, a failing first send
makes teardown propagate the error and leave the episode-existed flag
set — it neither completes nor reaches `Idle`, contradicting the
original claim. -/
theorem c7_teardown_raises_counterexample :
    (end_episode_fallible sampleState (some .sendFinal)).2.1 = true ∧
    (end_episode_fallible sampleState
      (some .sendFinal)).1.episode_existed = true := by
  decide

/-- C8 (amended): the termination tail is idempotent on the driver
state (the episode flag is simply cleared again), but each call —
including a second one on an already-terminated handle — re-sends the
group termination signal: there is no liveness check and no
idempotence guard around `os.killpg`. -/
theorem c8_terminate_resignals (st : EplusState) :
    (terminate st).2 = [Event.kill] ∧
    (terminate ((terminate st).1)).2 = [Event.kill] ∧
    (terminate ((terminate st).1)).1 = (terminate st).1 := by
  simp [terminate]

/-- C8 counterexample: calling the termination tail twice in a row on
the same handle emits the group-kill signal the second time as well —
an observable duplicate signal side effect, contradicting the original
claim's "no duplicate signal side effects". -/
theorem c8_second_terminate_counterexample :
    (terminate ((terminate sampleState).1)).2 ≠ ([] : List Event) := by
  decide

/-- C9: across one episode, if the peer's responses are non-decreasing
and each advances elapsed time by at most `δ ≥ 0` (one exchange's
drift) starting from the current cursor, then over any sequence of
`step` calls the driver's time cursor is non-decreasing from call to
call and never exceeds the configured episode length plus one
act-repeat batch's worth of drift (`act_repeat · δ`). -/
theorem c9_cursor_monotone_bounded (cfg : EplusConfig)
    (peer : ℕ → WireMsg) (δ : ℚ) (hδ : 0 ≤ δ) (hact : 1 ≤ cfg.act_repeat)
    (hmono : ∀ i, (peer i).curSimTim ≤ (peer (i + 1)).curSimTim)
    (hdrift : ∀ i, (peer (i + 1)).curSimTim ≤ (peer i).curSimTim + δ) :
    ∀ (actions : List (List ℚ)) (st : EplusState) (idx : ℕ),
      st.curSimTim ≤ (peer idx).curSimTim →
      (peer idx).curSimTim ≤ st.curSimTim + δ →
      st.curSimTim ≤ cfg.one_epi_len + (cfg.act_repeat : ℚ) * δ →
      List.Chain (· ≤ ·) st.curSimTim (runSteps cfg peer st idx actions) ∧
      ∀ c ∈ runSteps cfg peer st idx actions,
        c ≤ cfg.one_epi_len + (cfg.act_repeat : ℚ) * δ := by
  intro actions
  induction actions with
  | nil =>
    intro st idx _ _ _
    exact ⟨List.Chain.nil, fun c hc => absurd hc (List.not_mem_nil c)⟩
  | cons a as ih =>
    intro st idx h1 h2 hbound
    obtain ⟨hmon1, hb1, hnext1, hnext2⟩ :=
      step_invariant cfg st a peer idx δ hδ hact hmono hdrift h1 h2 hbound
    have hrun : runSteps cfg peer st idx (a :: as) =
        (step cfg st a peer idx).state.curSimTim ::
          runSteps cfg peer (step cfg st a peer idx).state
            (step cfg st a peer idx).nextIdx as := rfl
    obtain ⟨hchain, hmem⟩ := ih (step cfg st a peer idx).state
      (step cfg st a peer idx).nextIdx hnext1 hnext2 hb1
    rw [hrun]
    refine ⟨List.Chain.cons hmon1 hchain, ?_⟩
    intro c hc
    rcases List.mem_cons.mp hc with rfl | hc'
    · exact hb1
    · exact hmem c hc'

theorem c9_cursor_monotone_bounded_witness :
    ((0 : ℚ) ≤ 0 ∧ 1 ≤ sampleConfig.act_repeat ∧
      (∀ i, (steadyPeer i).curSimTim ≤ (steadyPeer (i + 1)).curSimTim) ∧
      (∀ i, (steadyPeer (i + 1)).curSimTim ≤ (steadyPeer i).curSimTim + 0) ∧
      steadyState.curSimTim ≤ (steadyPeer 0).curSimTim ∧
      (steadyPeer 0).curSimTim ≤ steadyState.curSimTim + 0 ∧
      steadyState.curSimTim ≤
        sampleConfig.one_epi_len + (sampleConfig.act_repeat : ℚ) * 0) ∧
    List.Chain (· ≤ ·) steadyState.curSimTim
      (runSteps sampleConfig steadyPeer steadyState 0 [[1]]) ∧
    ∀ c ∈ runSteps sampleConfig steadyPeer steadyState 0 [[1]],
      c ≤ sampleConfig.one_epi_len + (sampleConfig.act_repeat : ℚ) * 0 :=
  ⟨⟨le_refl 0, by decide, fun i => le_refl _,
      fun i => by norm_num [steadyPeer],
      by norm_num [steadyState, steadyPeer],
      by norm_num [steadyState, steadyPeer],
      by norm_num [steadyState, sampleConfig]⟩,
    c9_cursor_monotone_bounded sampleConfig steadyPeer 0 (le_refl 0)
      (by decide) (fun i => le_refl _) (fun i => by norm_num [steadyPeer])
      [[1]]
      steadyState 0 (by norm_num [steadyState, steadyPeer])
      (by norm_num [steadyState, steadyPeer])
      (by norm_num [steadyState, sampleConfig])⟩

/-- C10: `_disassembleMsg` never parses the final token of its input:
on any line of at least 7 tokens the result does not depend on the
last token at all, and on a well-formed header followed by `n - 7`
float tokens and an arbitrary final token it succeeds with exactly
those `n - 7` values (tokens 7 through `n - 1`, 1-based) — in
particular a non-numeric last token still decodes successfully. -/
theorem c10_final_token_ignored :
    (∀ (pre : List Token) (t t' : Token), 6 ≤ pre.length →
      disassembleMsg (pre ++ [t]) = disassembleMsg (pre ++ [t'])) ∧
    (∀ (v f a b c : ℤ) (s : ℚ) (qs : List ℚ) (last : Token),
      disassembleMsg
        ([.intTok v, .intTok f, .intTok a, .intTok b, .intTok c,
          .fracTok s] ++ qs.map (fun q => Token.fracTok q) ++ [last]) =
        some ⟨v, f, a, b, c, s, qs⟩) := by
  constructor
  · intro pre t t' hlen
    rcases pre with _ | ⟨a0, _ | ⟨a1, _ | ⟨a2, _ | ⟨a3, _ | ⟨a4, _ |
      ⟨a5, rest⟩⟩⟩⟩⟩⟩
    · simp at hlen
    · simp at hlen
    · simp at hlen
    · simp at hlen
    · simp at hlen
    · simp at hlen
    · simp only [List.cons_append, disassembleMsg]
      rw [List.dropLast_concat, List.dropLast_concat]
  · intro v f a b c s qs last
    simp only [List.cons_append, List.nil_append, disassembleMsg,
      parseIntTok, parseFloatTok, Option.bind_eq_bind, Option.some_bind]
    rw [List.dropLast_concat, parseFloats_map_fracTok]
    rfl

theorem c10_final_token_ignored_witness :
    disassembleMsg ([.intTok 1, .intTok 0, .intTok 0, .intTok 0, .intTok 0,
        .fracTok 0] ++ [Token.rawTok]) =
      disassembleMsg ([.intTok 1, .intTok 0, .intTok 0, .intTok 0, .intTok 0,
        .fracTok 0] ++ [Token.fracTok 7]) ∧
    disassembleMsg
        ([.intTok 1, .intTok 2, .intTok 1, .intTok 0, .intTok 0,
          .fracTok 4] ++ [(5 : ℚ)].map (fun q => Token.fracTok q) ++
          [Token.rawTok]) =
      some ⟨1, 2, 1, 0, 0, 4, [5]⟩ :=
  ⟨c10_final_token_ignored.1 _ Token.rawTok (Token.fracTok 7) (by decide),
    c10_final_token_ignored.2 1 2 1 0 0 4 [5] Token.rawTok⟩


end Sinergym
